import Mathlib

/-!
Shallow embedding of the two CNTK example scripts
`Examples/1stSteps/LogisticRegression_GraphAPI.py` and
`Examples/1stSteps/MNIST_Complex_Training.py`, together with proofs of the
specification claims about them.

Conventions of the embedding:
* numpy's seeded pseudo-random stream is modelled as an explicit state
  threaded through the computation (a linear congruential generator stands in
  for the Mersenne twister; only determinism and the value ranges of the
  draws matter to the claims, not the exact bit pattern);
* float32 arrays are modelled as lists of rationals, except where the
  mathematics of softmax requires the real exponential, where reals are used;
* sparse one-hot matrices built via `scipy.sparse.csr_matrix` are modelled as
  dense rows produced by `encodeOneHot`;
* Python slicing `l[i:i+m]` is `listSlice`, and `range(0, n, m)` is
  `pyRange n m`.
-/

namespace CNTK1stSteps

/-- Modelled from the spec: numpy's seeded random generator is a
deterministic state machine; a linear congruential step stands in for its
internal transition (the spec only relies on determinism for a fixed seed). -/
def lcgNext (s : Nat) : Nat := (1103515245 * s + 12345) % 2 ^ 31

/-- Modelled from the spec: one draw of `np.random.randint(low=0, high)`,
returning a value in `[0, high)` and the advanced generator state. -/
def randint (high s : Nat) : Nat × Nat :=
  (lcgNext s % high, lcgNext s)

/-- Modelled from the spec: one draw of `np.random.randn()`, a deterministic
pseudo-sample (value in [-1, 1] here; only determinism matters to the
claims). -/
def randn (s : Nat) : ℚ × Nat :=
  (((lcgNext s % 2001 : Nat) : ℚ) / 1000 - 1, lcgNext s)

/-- Draw `n` values with the drawing function `g`, threading the generator
state, as numpy does for an array request of size `n`: the head is the draw
from state `s` and the tail continues from the advanced state. -/
def genList {α : Type} (g : Nat → α × Nat) : Nat → Nat → List α × Nat
  | 0, s => ([], s)
  | n + 1, s =>
    ((g s).1 :: (genList g n (g s).2).1, (genList g n (g s).2).2)

namespace LogReg

/-- The constant `input_dim = 2` from the logistic-regression script. -/
def input_dim : Nat := 2

/-- The constant `num_classes = 2` from the logistic-regression script. -/
def num_classes : Nat := 2

end LogReg

/-- One-hot encoding of class `y` out of `c` classes: the dense row of the
sparse matrix built by
`scipy.sparse.csr_matrix((np.ones(N), (range(N), Y)), shape=(N, c))`. -/
def encodeOneHot (c y : Nat) : List ℚ :=
  (List.range c).map (fun j => if j = y then 1 else 0)

/-- A valid one-hot label row: some entry equals 1, every other entry equals
0, and the row sums to exactly 1. -/
def isOneHotRow (row : List ℚ) : Prop :=
  (∃ k, k < row.length ∧ row.getD k 0 = 1
    ∧ ∀ j, j < row.length → j ≠ k → row.getD j 0 = 0)
  ∧ row.sum = 1

namespace LogReg

/-- The feature row for a sample with label `y`:
`(np.random.randn(input_dim) + 3) * (y + 1)` from the script, drawing
`input_dim` pseudo-normal values from state `s`. -/
def featureRow (y : Nat) (s : Nat) : List ℚ × Nat :=
  ((genList randn input_dim s).1.map (fun v => (v + 3) * ((y : ℚ) + 1)),
   (genList randn input_dim s).2)

/-- The feature matrix `X`: one row per label, rows drawn in order,
threading the generator state. -/
def featureRows : List Nat → Nat → List (List ℚ) × Nat
  | [], s => ([], s)
  | y :: ys, s =>
    ((featureRow y s).1 :: (featureRows ys (featureRow y s).2).1,
     (featureRows ys (featureRow y s).2).2)

/-- The function `generate_synthetic_data(N)` from the script: draws `N` labels in
`[0, num_classes)`, builds the feature matrix from them, and one-hot encodes
the labels; returns `(X, Y_one_hot, final_rng_state)`. -/
def generate_synthetic_data (N s : Nat) : List (List ℚ) × List (List ℚ) × Nat :=
  ((featureRows (genList (randint num_classes) N s).1
      (genList (randint num_classes) N s).2).1,
   (genList (randint num_classes) N s).1.map (encodeOneHot num_classes),
   (featureRows (genList (randint num_classes) N s).1
      (genList (randint num_classes) N s).2).2)

end LogReg

/-- Python slice `l[i : i + m]` (for natural `i`, `m`). -/
def listSlice {α : Type} (l : List α) (i m : Nat) : List α :=
  (l.drop i).take m

/-- Python `range(0, n, m)`: the minibatch start offsets of the training and
test loops, `0, m, 2m, ...` while below `n`. -/
def pyRange (n m : Nat) : List Nat :=
  (List.range ((n + m - 1) / m)).map (fun k => k * m)

/-- State of the framework `Trainer`: the trainable parameters plus a count
of parameter updates performed. -/
structure TrainerState (P : Type) where
  params : P
  updates : Nat

/-- Modelled from the spec: `trainer.train_minibatch` performs exactly one
synchronous parameter update from the given minibatch (section 4.4: "updates
parameters synchronously per batch"); the learner's update rule `upd` itself
is framework code out of scope. -/
def train_minibatch {P A B : Type} (upd : P → List A × List B → P)
    (st : TrainerState P) (batch : List A × List B) : TrainerState P :=
  { params := upd st.params batch, updates := st.updates + 1 }

/-- The training loop of the logistic-regression script:
`for i in range(0, len(X_train), minibatch_size):`
`    trainer.train_minibatch({data: X[i:i+m], label: Y[i:i+m]})`. -/
def trainLoop {P A B : Type} (upd : P → List A × List B → P)
    (Xs : List A) (Ys : List B) (m : Nat) (st : TrainerState P) : TrainerState P :=
  (pyRange Xs.length m).foldl
    (fun st i => train_minibatch upd st (listSlice Xs i m, listSlice Ys i m)) st

/-- Dot product of two feature lists. -/
def dotProd {α : Type} [CommRing α] (a b : List α) : α :=
  (List.zipWith (fun x y => x * y) a b).sum

namespace LogReg

/-- The logistic-regression model `cntk.times(data, W) + b`: for input `x`,
score `j` is `(x @ W)[j] + b[j]`; `W` has shape `(input_dim, num_classes)`
and `b` shape `(num_classes,)`, so the output has `num_classes` entries. -/
def model {α : Type} [CommRing α] (W : List (List α)) (bv : List α)
    (x : List α) : List α :=
  (List.range num_classes).map
    (fun j => dotProd x (W.map (fun row => row.getD j 0)) + bv.getD j 0)

end LogReg

/-- First index of the maximum of `bv :: rest`, numbering the head as index
`i`; replaces the running best only on a strictly larger value, as
`np.argmax` keeps the first occurrence of the maximum. -/
def argmaxAux {α : Type} [LinearOrder α] : List α → Nat → α → Nat → Nat
  | [], _, _, best => best
  | a :: rest, i, bv, best =>
    if bv < a then argmaxAux rest (i + 1) a i else argmaxAux rest (i + 1) bv best

/-- The function `np.argmax` over a non-empty list: the first index attaining the
maximum (0 on the empty list). -/
def argmaxIdx {α : Type} [LinearOrder α] : List α → Nat
  | [] => 0
  | a :: rest => argmaxAux rest 1 a 0

/-- The metric `cntk.classification_error(model, label)` averaged over a minibatch of
(feature, one-hot label) samples: the fraction of samples whose predicted
class index differs from the label's class index. -/
def classification_error (W : List (List ℚ)) (bv : List ℚ)
    (batch : List (List ℚ × List ℚ)) : ℚ :=
  ((batch.filter
      (fun sp => argmaxIdx (LogReg.model W bv sp.1) != argmaxIdx sp.2)).length : ℚ)
    / (batch.length : ℚ)

/-- State of the framework `Evaluator` built from
`cntk.Evaluator(metric, ...)`: the model parameters it reads, plus the
accumulated metric mass and sample count used for the averaged summary. -/
structure EvalState where
  W : List (List ℚ)
  b : List ℚ
  metricSum : ℚ
  samples : Nat

/-- Modelled from the spec: `evaluator.test_minibatch` runs the forward
computation only (section 4.5: a read-only pass that accumulates the metric
and "must not mutate model parameters"); returns the batch metric and the
new evaluator state. The metric itself is the embedded
`classification_error` of the script. -/
def test_minibatch (st : EvalState) (batch : List (List ℚ × List ℚ)) :
    ℚ × EvalState :=
  let m := classification_error st.W st.b batch
  (m, { st with metricSum := st.metricSum + m * (batch.length : ℚ),
                samples := st.samples + batch.length })

/-- The function `cntk.softmax` over a score list, with the real exponential standing in
for the framework's floating-point one: entry `i` is `exp zᵢ / Σⱼ exp zⱼ`. -/
noncomputable def softmaxL (z : List ℝ) : List ℝ :=
  z.map (fun zi => Real.exp zi / (z.map Real.exp).sum)

namespace LogReg

/-- The function `get_probability = cntk.softmax(model)` from the logistic-regression
script: softmax applied to the raw model scores. -/
noncomputable def get_probability (W : List (List ℝ)) (bv : List ℝ)
    (x : List ℝ) : List ℝ :=
  softmaxL (model W bv x)

end LogReg

namespace Mnist

/-- Tensor shapes as lists of dimensions, e.g. `[28, 28]` for one MNIST
image and `[32, 28, 28]` for a 32-channel feature map. -/
abbrev Shape : Type := List Nat

/-- Spatial output size of a convolution window of size `k`: unchanged under
same-padding (`pad=True`), else `h - k + 1` (valid convolution). -/
def convSpatial (k : Nat) (pad : Bool) (h : Nat) : Nat :=
  if pad then h else h - k + 1

/-- Spatial output size of pooling with window `k` and stride `s` (no
padding): `(h - k) / s + 1`. -/
def poolSpatial (k s h : Nat) : Nat := (h - k) / s + 1

/-- Shape semantics of `C.layers.Convolution2D((kh,kw), num_filters=f)`:
a rank-2 input (`reduction_rank=0`) or a channels-first rank-3 input maps to
`f` output channels with convolved spatial dimensions. -/
def convolution2DShape (kh kw f : Nat) (pad : Bool) : Shape → Shape
  | [h, w] => [f, convSpatial kh pad h, convSpatial kw pad w]
  | [_, h, w] => [f, convSpatial kh pad h, convSpatial kw pad w]
  | _ => []

/-- Shape semantics of `C.layers.MaxPooling((kh,kw), strides=(sh,sw))` on a
channels-first rank-3 input (or a rank-2 input). -/
def maxPoolingShape (kh kw sh sw : Nat) : Shape → Shape
  | [h, w] => [poolSpatial kh sh h, poolSpatial kw sw w]
  | [c, h, w] => [c, poolSpatial kh sh h, poolSpatial kw sw w]
  | _ => []

/-- Shape semantics of `C.layers.Dense(units)`: the input tensor is flattened
and mapped to `units` outputs. -/
def denseShape (units : Nat) : Shape → Shape := fun _ => [units]

/-- Shape semantics of `C.layers.Dropout`: shape-preserving (identity on
shapes; at evaluation time dropout is the identity). -/
def dropoutShape : Shape → Shape := fun s => s

/-- The constant `num_classes = 10` from the MNIST script. -/
def num_classes : Nat := 10

/-- The shape pipeline of the MNIST model, layer by layer in the order of
`C.layers.Sequential` in the script: Convolution2D((5,5), 32, pad=True),
MaxPooling((3,3), strides=(2,2)), Convolution2D((3,3), 48),
MaxPooling((3,3), strides=(2,2)), Convolution2D((3,3), 64), Dense(96),
Dropout(0.5), Dense(num_classes). The `pad=False` of the surrounding
`default_options` applies where no explicit padding is given. -/
def modelShape (s : Shape) : Shape :=
  denseShape num_classes
    (dropoutShape
      (denseShape 96
        (convolution2DShape 3 3 64 false
          (maxPoolingShape 3 3 2 2
            (convolution2DShape 3 3 48 false
              (maxPoolingShape 3 3 2 2
                (convolution2DShape 5 5 32 true s)))))))

end Mnist

/-- Apply the index list `p` to `l`: element `i` of the result is
`l[p[i]]`.  With `p` a permutation of `range l.length` this is exactly a
joint reindexing of `l`, the semantics of `sklearn.utils.shuffle` for one
array. -/
def applyPerm {α : Type} (p : List Nat) (l : List α) : List α :=
  p.filterMap (fun j => l.get? j)

namespace Mnist

/-- The scaling `mnist.data / 255.` from the script: scale every pixel by 1/255. -/
def normalize255 (X : List (List ℚ)) : List (List ℚ) :=
  X.map (fun r => r.map (fun v => v / 255))

/-- The function `fetch_mnist()` from the MNIST script, with the fetched corpus passed in
as `(Xraw, Yraw)` (the download itself is out of scope) and with the
seeded shuffle modelled from the spec as an RNG-determined permutation `p`
applied jointly to features and labels (`sklearn.utils.shuffle` semantics):
scales features by 1/255, splits off the first 60000 samples as the training
set and the rest as the test set, shuffles only the training set, and
one-hot encodes both label vectors. Images are kept as flat rows; the
reshape to (28, 28) is layout bookkeeping that the claims do not touch. -/
def fetch_mnist (p : List Nat) (Xraw : List (List ℚ)) (Yraw : List Nat) :
    List (List ℚ) × List (List ℚ) × List (List ℚ) × List (List ℚ) :=
  let X := normalize255 Xraw
  let Xtr := X.take 60000
  let Xte := X.drop 60000
  let Ytr := Yraw.take 60000
  let Yte := Yraw.drop 60000
  (applyPerm p Xtr, (applyPerm p Ytr).map (encodeOneHot 10),
   Xte, Yte.map (encodeOneHot 10))

end Mnist

namespace LogReg

/-- The data-generation trace of one execution of the logistic-regression
script: the module sets `np.random.seed(0)` once at load, then generates
20000 training, 1000 test and 25 inspection samples from that single
stream, in program order. -/
def scriptData :
    (List (List ℚ) × List (List ℚ)) × (List (List ℚ) × List (List ℚ)) ×
      (List (List ℚ) × List (List ℚ)) :=
  let (X_train, Y_train, s1) := generate_synthetic_data 20000 0
  let (X_test, Y_test, s2) := generate_synthetic_data 1000 s1
  let (X_check, Y_check, _) := generate_synthetic_data 25 s2
  ((X_train, Y_train), (X_test, Y_test), (X_check, Y_check))

/-- One execution of the script's data generation: `run` holds the six
arrays an execution produced.  The script is a deterministic function of the
fixed seed, so this relation is its graph. -/
def ScriptRun
    (run : (List (List ℚ) × List (List ℚ)) × (List (List ℚ) × List (List ℚ)) ×
      (List (List ℚ) × List (List ℚ))) : Prop :=
  run = scriptData

end LogReg

/-! ### Lemmas about Python-style slicing and the minibatch loop -/

theorem listSlice_length {α : Type} (l : List α) (i m : Nat) :
    (listSlice l i m).length = min m (l.length - i) := by
  simp [listSlice]

theorem pyRange_length (n m : Nat) : (pyRange n m).length = (n + m - 1) / m := by
  simp [pyRange]

theorem pyRange_zero (m : Nat) : pyRange 0 m = [] := by
  rcases Nat.eq_zero_or_pos m with h | h
  · subst h; rfl
  · have h2 : (0 + m - 1) / m = 0 := Nat.div_eq_of_lt (by omega)
    unfold pyRange
    rw [h2]
    rfl

theorem ceil_div_pred (n m : Nat) (hm : 0 < m) (hn : 0 < n) :
    (n + m - 1) / m = (n - 1) / m + 1 := by
  have h : n + m - 1 = (n - 1) + m := by omega
  rw [h, Nat.add_div_right _ hm]

theorem pyRange_succ (n m : Nat) (hm : 0 < m) (hn : 0 < n) :
    pyRange n m = 0 :: (pyRange (n - m) m).map (fun i => i + m) := by
  have hcount : (n + m - 1) / m = (n - m + m - 1) / m + 1 := by
    rcases le_or_lt n m with h | h
    · have h1 : n - m = 0 := by omega
      have h2 : (0 + m - 1) / m = 0 := Nat.div_eq_of_lt (by omega)
      have h3 : (n - 1) / m = 0 := Nat.div_eq_of_lt (by omega)
      rw [h1, h2, ceil_div_pred n m hm hn, h3]
    · have h1 : n - m + m - 1 = (n - m - 1) + m := by omega
      rw [ceil_div_pred n m hm hn, h1, Nat.add_div_right _ hm]
      have h2 : n - 1 = (n - m - 1) + m := by omega
      rw [h2, Nat.add_div_right _ hm]
  unfold pyRange
  rw [hcount, List.range_succ_eq_map, List.map_cons, Nat.zero_mul, List.map_map,
    List.map_map]
  congr 1
  apply List.map_congr_left
  intro j _
  simp only [Function.comp_apply, Nat.succ_eq_add_one]
  ring

theorem listSlice_shift {α : Type} (l : List α) (i m : Nat) :
    listSlice l (i + m) m = listSlice (l.drop m) i m := by
  simp [listSlice, List.drop_drop, Nat.add_comm]

/-- Concatenating the slices of the minibatch loop in order reconstructs the
whole data list: every sample is presented exactly once, in order, with no
overlap between slices. -/
theorem flatten_pyRange_slices {α : Type} (m : Nat) (hm : 0 < m) :
    ∀ (n : Nat) (l : List α), l.length = n →
      ((pyRange n m).map (fun i => listSlice l i m)).flatten = l := by
  intro n
  induction n using Nat.strong_induction_on with
  | _ n ih =>
    intro l hl
    rcases Nat.eq_zero_or_pos n with h0 | hpos
    · subst h0
      rw [pyRange_zero]
      simp [List.length_eq_zero.mp hl]
    · rw [pyRange_succ n m hm hpos, List.map_cons, List.map_map, List.flatten_cons]
      have hmap : (pyRange (n - m) m).map ((fun i => listSlice l i m) ∘ fun i => i + m)
          = (pyRange (n - m) m).map (fun i => listSlice (l.drop m) i m) := by
        apply List.map_congr_left
        intro j _
        simp only [Function.comp_apply]
        exact listSlice_shift l j m
      rw [hmap, ih (n - m) (by omega) (l.drop m) (by simp [hl])]
      have h0 : listSlice l 0 m = l.take m := by simp [listSlice]
      rw [h0, List.take_append_drop]

theorem lt_ceil_iff (n m k : Nat) (hm : 0 < m) :
    k < (n + m - 1) / m ↔ k * m < n := by
  have h1 : k < (n + m - 1) / m ↔ k + 1 ≤ (n + m - 1) / m := Iff.rfl
  rw [h1, Nat.le_div_iff_mul_le hm, Nat.add_mul, Nat.one_mul]
  omega

/-- Any slice whose index is not the last in the loop has exactly `m`
samples. -/
theorem slice_full_of_not_last {α : Type} (l : List α) (m k : Nat) (hm : 0 < m)
    (hk : k + 1 < (pyRange l.length m).length) :
    (listSlice l (k * m) m).length = m := by
  rw [pyRange_length] at hk
  have h := (lt_ceil_iff l.length m (k + 1) hm).mp hk
  rw [Nat.add_mul, Nat.one_mul] at h
  rw [listSlice_length]
  omega

/-- The size of the final slice: all of the remaining samples, i.e.
`n % m` of them when `m` does not divide `n`, and a full `m` when it does. -/
theorem slice_last_length {α : Type} (l : List α) (m : Nat) (hm : 0 < m)
    (hn : 0 < l.length) :
    (listSlice l (((pyRange l.length m).length - 1) * m) m).length
      = if l.length % m = 0 then m else l.length % m := by
  rw [pyRange_length, ceil_div_pred l.length m hm hn, Nat.add_sub_cancel,
    listSlice_length, Nat.mul_comm]
  have hqr := Nat.div_add_mod (l.length - 1) m
  have hr : (l.length - 1) % m < m := Nat.mod_lt _ hm
  have hlen : l.length = m * ((l.length - 1) / m) + ((l.length - 1) % m + 1) := by
    omega
  have hmod : l.length % m = ((l.length - 1) % m + 1) % m := by
    conv_lhs => rw [hlen]
    rw [Nat.mul_add_mod]
  have hsub : l.length - m * ((l.length - 1) / m) = (l.length - 1) % m + 1 := by
    omega
  rw [hsub, hmod]
  rcases Nat.lt_or_ge ((l.length - 1) % m + 1) m with h | h
  · rw [Nat.mod_eq_of_lt h, if_neg (by omega)]
    omega
  · have heq : (l.length - 1) % m + 1 = m := by omega
    rw [heq, Nat.mod_self, if_pos rfl]
    omega

/-- When `m` divides the data size, every slice of the loop is full. -/
theorem slice_full_of_dvd {α : Type} (l : List α) (m k : Nat) (hm : 0 < m)
    (hdvd : l.length % m = 0) (hk : k < (pyRange l.length m).length) :
    (listSlice l (k * m) m).length = m := by
  rw [pyRange_length] at hk
  have h := (lt_ceil_iff l.length m k hm).mp hk
  rw [listSlice_length]
  have hsub : m ∣ l.length - k * m := by
    refine Nat.dvd_sub' (Nat.dvd_of_mod_eq_zero hdvd) ⟨k, Nat.mul_comm k m⟩
  have hpos : 0 < l.length - k * m := by omega
  have hle : m ≤ l.length - k * m := Nat.le_of_dvd hpos hsub
  omega

theorem trainLoop_updates_aux {P A B : Type} (upd : P → List A × List B → P)
    (m : Nat) :
    ∀ (starts : List Nat) (Xs : List A) (Ys : List B) (st : TrainerState P),
      (starts.foldl
          (fun st i => train_minibatch upd st (listSlice Xs i m, listSlice Ys i m))
          st).updates
        = st.updates + starts.length := by
  intro starts
  induction starts with
  | nil => simp
  | cons a t ih =>
    intro Xs Ys st
    rw [List.foldl_cons, ih, List.length_cons]
    simp [train_minibatch]
    omega

/-! ### Claim C1: the training loop presents contiguous slices exactly once -/

/-- C1: for a training set of `n` samples and minibatch size `m`, the
training loop presents the data as the contiguous slices
`[0,m), [m,2m), ...` in order: their concatenation in loop order is exactly
the training set (every sample presented exactly once, with no overlap);
every slice except the last has exactly `m` samples; when `m` does not
divide `n` the final slice has the remaining `n % m` samples without
padding (and when `m` divides `n` every slice, the final one included, is
full); and the trainer performs exactly one parameter update per slice. -/
theorem C1_train_loop_slicing {P A B : Type} (upd : P → List A × List B → P)
    (Xs : List A) (Ys : List B) (m : Nat) (st : TrainerState P)
    (hm : 0 < m) :
    (((pyRange Xs.length m).map (fun i => listSlice Xs i m)).flatten = Xs)
    ∧ (∀ k, k + 1 < (pyRange Xs.length m).length →
        (listSlice Xs (k * m) m).length = m)
    ∧ (0 < Xs.length → Xs.length % m ≠ 0 →
        (listSlice Xs (((pyRange Xs.length m).length - 1) * m) m).length
          = Xs.length % m)
    ∧ (Xs.length % m = 0 → ∀ k, k < (pyRange Xs.length m).length →
        (listSlice Xs (k * m) m).length = m)
    ∧ (trainLoop upd Xs Ys m st).updates
        = st.updates + (pyRange Xs.length m).length := by
  refine ⟨flatten_pyRange_slices m hm Xs.length Xs rfl,
    fun k hk => slice_full_of_not_last Xs m k hm hk,
    fun hn hmod => ?_,
    fun hmod k hk => slice_full_of_dvd Xs m k hm hmod hk,
    trainLoop_updates_aux upd m (pyRange Xs.length m) Xs Ys st⟩
  rw [slice_last_length Xs m hm hn, if_neg hmod]

/-- Witness for C1 at a concrete input: five samples, minibatch size two,
so the loop presents slices of sizes 2, 2, 1 and updates three times. -/
theorem C1_train_loop_slicing_witness :
    ((pyRange ([10, 20, 30, 40, 50] : List Nat).length 2).map
        (fun i => listSlice [10, 20, 30, 40, 50] i 2)).flatten
        = [10, 20, 30, 40, 50]
    ∧ (trainLoop (fun (p : Nat) _ => p) [10, 20, 30, 40, 50]
        ([1, 1, 0, 1, 0] : List Nat) 2 ⟨7, 0⟩).updates
        = 0 + (pyRange ([10, 20, 30, 40, 50] : List Nat).length 2).length := by
  have h := C1_train_loop_slicing (fun (p : Nat) _ => p)
    [10, 20, 30, 40, 50] ([1, 1, 0, 1, 0] : List Nat) 2 ⟨7, 0⟩ (by decide)
  exact ⟨h.1, h.2.2.2.2⟩

/-! ### Claim C8: every minibatch has matching feature and label counts -/

/-- C8: slices at the same offset taken from feature and label arrays of
equal length contain the same number of samples, so in every minibatch the
number of feature rows equals the number of label rows. -/
theorem C8_minibatch_feature_label_counts {α β : Type} (Xs : List α)
    (Ys : List β) (h : Xs.length = Ys.length) (i m : Nat) :
    (listSlice Xs i m).length = (listSlice Ys i m).length := by
  simp [listSlice, h]

/-- Witness for C8 at a concrete input: a slice straddling the end of
three-element feature and label lists. -/
theorem C8_minibatch_feature_label_counts_witness :
    (listSlice ([5, 6, 7] : List Nat) 2 2).length
      = (listSlice [true, false, true] 2 2).length :=
  C8_minibatch_feature_label_counts [5, 6, 7] [true, false, true] (by decide) 2 2

/-! ### Claim C2: the evaluation pass is read-only and repeatable -/

/-- C2: `evaluator.test_minibatch` does not mutate model parameters, and
invoking it twice in a row on the same held-out batch (the second call
running from the state the first call left behind) returns identical metric
values; the parameters after both calls equal the parameters before. -/
theorem C2_evaluator_read_only (st : EvalState)
    (batch : List (List ℚ × List ℚ)) :
    (test_minibatch st batch).1
        = (test_minibatch (test_minibatch st batch).2 batch).1
    ∧ (test_minibatch st batch).2.W = st.W
    ∧ (test_minibatch st batch).2.b = st.b
    ∧ (test_minibatch (test_minibatch st batch).2 batch).2.W = st.W
    ∧ (test_minibatch (test_minibatch st batch).2 batch).2.b = st.b := by
  have hW : ∀ st1 : EvalState, (test_minibatch st1 batch).2.W = st1.W :=
    fun _ => rfl
  have hb : ∀ st1 : EvalState, (test_minibatch st1 batch).2.b = st1.b :=
    fun _ => rfl
  have hm : ∀ st1 : EvalState, (test_minibatch st1 batch).1
      = classification_error st1.W st1.b batch := fun _ => rfl
  refine ⟨?_, hW st, hb st, ?_, ?_⟩
  · rw [hm, hm, hW st, hb st]
  · rw [hW, hW st]
  · rw [hb, hb st]

/-! ### Claim C3: seeded synthetic data generation is deterministic -/

/-- C3: with `np.random.seed(0)` set once at module load, any two executions
of the logistic-regression script produce identical `X_train`, `Y_train`,
`X_test`, `Y_test`, `X_check`, `Y_check` arrays: the whole data-generation
trace is a deterministic function of the fixed seed. -/
theorem C3_seeded_generation_deterministic
    (r1 r2 : (List (List ℚ) × List (List ℚ)) × (List (List ℚ) × List (List ℚ)) ×
      (List (List ℚ) × List (List ℚ)))
    (h1 : LogReg.ScriptRun r1) (h2 : LogReg.ScriptRun r2) :
    r1.1.1 = r2.1.1 ∧ r1.1.2 = r2.1.2
    ∧ r1.2.1.1 = r2.2.1.1 ∧ r1.2.1.2 = r2.2.1.2
    ∧ r1.2.2.1 = r2.2.2.1 ∧ r1.2.2.2 = r2.2.2.2 := by
  have e1 : r1 = LogReg.scriptData := h1
  have e2 : r2 = LogReg.scriptData := h2
  have e : r1 = r2 := e1.trans e2.symm
  exact ⟨congrArg (fun r => r.1.1) e, congrArg (fun r => r.1.2) e,
    congrArg (fun r => r.2.1.1) e, congrArg (fun r => r.2.1.2) e,
    congrArg (fun r => r.2.2.1) e, congrArg (fun r => r.2.2.2) e⟩

/-- Witness for C3: two executions of the script's data generation (both
described by `ScriptRun`) agree on the training arrays. -/
theorem C3_seeded_generation_deterministic_witness :
    LogReg.scriptData.1.1 = LogReg.scriptData.1.1 :=
  (C3_seeded_generation_deterministic LogReg.scriptData LogReg.scriptData
    rfl rfl).1

/-! ### Lemmas about the random draws and one-hot encodings -/

theorem genList_length {α : Type} (g : Nat → α × Nat) :
    ∀ (n s : Nat), ((genList g n s).1).length = n := by
  intro n
  induction n with
  | zero => intro s; rfl
  | succ k ih =>
    intro s
    simp [genList, ih]

theorem genList_mem {α : Type} (g : Nat → α × Nat) (P : α → Prop)
    (hg : ∀ s, P (g s).1) :
    ∀ (n s : Nat), ∀ x ∈ (genList g n s).1, P x := by
  intro n
  induction n with
  | zero => intro s x hx; simp [genList] at hx
  | succ k ih =>
    intro s x hx
    simp only [genList] at hx
    rcases List.mem_cons.mp hx with rfl | hx2
    · exact hg s
    · exact ih (g s).2 x hx2

theorem randint_lt (c s : Nat) (hc : 0 < c) : (randint c s).1 < c :=
  Nat.mod_lt _ hc

theorem encodeOneHot_length (c y : Nat) : (encodeOneHot c y).length = c := by
  simp [encodeOneHot]

theorem encodeOneHot_getD (c y j : Nat) (hj : j < c) :
    (encodeOneHot c y).getD j 0 = if j = y then 1 else 0 := by
  have hlen : j < (encodeOneHot c y).length := by
    simpa [encodeOneHot] using hj
  rw [List.getD_eq_getElem _ _ hlen]
  simp [encodeOneHot]

theorem encodeOneHot_sum_zero (c y : Nat) (hy : c ≤ y) :
    (encodeOneHot c y).sum = 0 := by
  apply List.sum_eq_zero
  intro x hx
  simp only [encodeOneHot, List.mem_map, List.mem_range] at hx
  obtain ⟨j, hj, rfl⟩ := hx
  rw [if_neg (by omega)]

theorem encodeOneHot_sum_one (c y : Nat) (hy : y < c) :
    (encodeOneHot c y).sum = 1 := by
  induction c with
  | zero => omega
  | succ k ih =>
    rw [encodeOneHot, List.range_succ, List.map_append, List.sum_append,
      ← encodeOneHot]
    rcases Nat.lt_or_ge y k with h | h
    · rw [ih h]
      simp only [List.map_cons, List.map_nil, List.sum_cons, List.sum_nil]
      rw [if_neg (by omega)]
      ring
    · have hky : k = y := by omega
      subst hky
      rw [encodeOneHot_sum_zero k k h]
      simp

theorem isOneHotRow_encodeOneHot (c y : Nat) (hy : y < c) :
    isOneHotRow (encodeOneHot c y) := by
  constructor
  · refine ⟨y, ?_, ?_, ?_⟩
    · simpa [encodeOneHot] using hy
    · rw [encodeOneHot_getD c y y hy]
      simp
    · intro j hj hne
      rw [encodeOneHot_getD c y j (by simpa [encodeOneHot] using hj)]
      rw [if_neg hne]
  · exact encodeOneHot_sum_one c y hy

theorem applyPerm_mem {α : Type} (p : List Nat) (l : List α) (a : α)
    (ha : a ∈ applyPerm p l) : a ∈ l := by
  obtain ⟨j, _, hja⟩ := List.mem_filterMap.mp ha
  exact List.get?_mem hja

theorem featureRow_length (y s : Nat) :
    ((LogReg.featureRow y s).1).length = LogReg.input_dim := by
  simp [LogReg.featureRow, genList_length]

theorem featureRows_length (ys : List Nat) :
    ∀ s : Nat, ((LogReg.featureRows ys s).1).length = ys.length := by
  induction ys with
  | nil => intro s; rfl
  | cons y t ih =>
    intro s
    simp [LogReg.featureRows, ih]

theorem featureRows_mem_length (ys : List Nat) :
    ∀ s : Nat, ∀ row ∈ (LogReg.featureRows ys s).1,
      row.length = LogReg.input_dim := by
  induction ys with
  | nil => intro s row hrow; simp [LogReg.featureRows] at hrow
  | cons y t ih =>
    intro s row hrow
    simp only [LogReg.featureRows] at hrow
    rcases List.mem_cons.mp hrow with rfl | h2
    · exact featureRow_length y s
    · exact ih (LogReg.featureRow y s).2 row h2

theorem featureRows_get (ys : List Nat) :
    ∀ (s i : Nat), i < ys.length →
      ∃ s2, ((LogReg.featureRows ys s).1).get? i
        = some ((LogReg.featureRow (ys.getD i 0) s2).1) := by
  induction ys with
  | nil => intro s i hi; simp at hi
  | cons y t ih =>
    intro s i hi
    cases i with
    | zero => exact ⟨s, rfl⟩
    | succ j =>
      obtain ⟨s2, h2⟩ := ih (LogReg.featureRow y s).2 j (by simpa using hi)
      exact ⟨s2, h2⟩

/-! ### Claim C4: every generated label row is a valid one-hot encoding -/

/-- C4: every label row produced by `generate_synthetic_data` and by
`fetch_mnist` (training and test labels alike) is a valid one-hot encoding:
exactly one entry equals 1, all other entries equal 0, and the row sums to
exactly 1.  For MNIST the fetched targets are digits below 10 (hypothesis
`hY`; the corpus itself is external). -/
theorem C4_one_hot_labels (N s : Nat) (p : List Nat) (Xraw : List (List ℚ))
    (Yraw : List Nat) (hY : ∀ y ∈ Yraw, y < 10) :
    (∀ row ∈ (LogReg.generate_synthetic_data N s).2.1, isOneHotRow row)
    ∧ (∀ row ∈ (Mnist.fetch_mnist p Xraw Yraw).2.1, isOneHotRow row)
    ∧ (∀ row ∈ (Mnist.fetch_mnist p Xraw Yraw).2.2.2, isOneHotRow row) := by
  refine ⟨?_, ?_, ?_⟩
  · intro row hrow
    simp only [LogReg.generate_synthetic_data] at hrow
    obtain ⟨y, hy, rfl⟩ := List.mem_map.mp hrow
    have hlt : y < LogReg.num_classes :=
      genList_mem (randint LogReg.num_classes) (fun v => v < LogReg.num_classes)
        (fun s0 => randint_lt _ s0 (by decide)) N s y hy
    exact isOneHotRow_encodeOneHot _ y hlt
  · intro row hrow
    simp only [Mnist.fetch_mnist] at hrow
    obtain ⟨y, hy, rfl⟩ := List.mem_map.mp hrow
    have hmem : y ∈ Yraw := List.take_subset _ _ (applyPerm_mem p _ y hy)
    exact isOneHotRow_encodeOneHot 10 y (hY y hmem)
  · intro row hrow
    simp only [Mnist.fetch_mnist] at hrow
    obtain ⟨y, hy, rfl⟩ := List.mem_map.mp hrow
    exact isOneHotRow_encodeOneHot 10 y (hY y (List.drop_subset _ _ hy))

/-- Witness for C4 at a concrete input: one synthetic sample and a one-image
MNIST corpus with digit label 7. -/
theorem C4_one_hot_labels_witness :
    (∀ row ∈ (LogReg.generate_synthetic_data 1 0).2.1, isOneHotRow row)
    ∧ (∀ row ∈ (Mnist.fetch_mnist [0] [[3]] [7]).2.1, isOneHotRow row)
    ∧ (∀ row ∈ (Mnist.fetch_mnist [0] [[3]] [7]).2.2.2, isOneHotRow row) :=
  C4_one_hot_labels 1 0 [0] [[3]] [7] (by decide)

/-! ### Claim C5: `generate_synthetic_data(N)` returns exactly `N` samples -/

/-- C5: `generate_synthetic_data N` returns exactly `N` samples: the feature
matrix has `N` rows of `input_dim` entries, the label matrix has `N` rows of
`num_classes` entries, and each row `i` of `X` is the feature row generated
from the very label whose one-hot encoding is row `i` of `Y`. -/
theorem C5_generate_synthetic_data_count (N s i : Nat) (hi : i < N) :
    (LogReg.generate_synthetic_data N s).1.length = N
    ∧ (∀ row ∈ (LogReg.generate_synthetic_data N s).1,
        row.length = LogReg.input_dim)
    ∧ (LogReg.generate_synthetic_data N s).2.1.length = N
    ∧ (∀ row ∈ (LogReg.generate_synthetic_data N s).2.1,
        row.length = LogReg.num_classes)
    ∧ (∃ y s2, y < LogReg.num_classes
        ∧ (LogReg.generate_synthetic_data N s).2.1.get? i
            = some (encodeOneHot LogReg.num_classes y)
        ∧ (LogReg.generate_synthetic_data N s).1.get? i
            = some ((LogReg.featureRow y s2).1)) := by
  have hylen : ((genList (randint LogReg.num_classes) N s).1).length = N :=
    genList_length _ N s
  have hiy : i < ((genList (randint LogReg.num_classes) N s).1).length := by
    omega
  refine ⟨?_, ?_, ?_, ?_, ?_⟩
  · simp only [LogReg.generate_synthetic_data]
    rw [featureRows_length, hylen]
  · intro row hrow
    simp only [LogReg.generate_synthetic_data] at hrow
    exact featureRows_mem_length _ _ row hrow
  · simp only [LogReg.generate_synthetic_data, List.length_map]
    exact hylen
  · intro row hrow
    simp only [LogReg.generate_synthetic_data] at hrow
    obtain ⟨y, hy, rfl⟩ := List.mem_map.mp hrow
    exact encodeOneHot_length _ y
  · obtain ⟨s2, hget⟩ :=
      featureRows_get (genList (randint LogReg.num_classes) N s).1
        (genList (randint LogReg.num_classes) N s).2 i hiy
    refine ⟨(genList (randint LogReg.num_classes) N s).1.getD i 0, s2, ?_, ?_, ?_⟩
    · have hmem : (genList (randint LogReg.num_classes) N s).1.getD i 0
          ∈ (genList (randint LogReg.num_classes) N s).1 := by
        rw [List.getD_eq_getElem _ 0 hiy]
        exact List.getElem_mem hiy
      exact genList_mem (randint LogReg.num_classes)
        (fun v => v < LogReg.num_classes)
        (fun s0 => randint_lt _ s0 (by decide)) N s _ hmem
    · simp only [LogReg.generate_synthetic_data]
      rw [List.get?_map, List.get?_eq_get hiy, Option.map_some']
      congr 1
      rw [List.get_eq_getElem, List.getD_eq_getElem _ 0 hiy]
    · simp only [LogReg.generate_synthetic_data]
      exact hget

/-- Witness for C5 at a concrete input: two samples requested, inspecting
row 1. -/
theorem C5_generate_synthetic_data_count_witness :
    (LogReg.generate_synthetic_data 2 0).1.length = 2
    ∧ (∀ row ∈ (LogReg.generate_synthetic_data 2 0).1,
        row.length = LogReg.input_dim)
    ∧ (LogReg.generate_synthetic_data 2 0).2.1.length = 2
    ∧ (∀ row ∈ (LogReg.generate_synthetic_data 2 0).2.1,
        row.length = LogReg.num_classes)
    ∧ (∃ y s2, y < LogReg.num_classes
        ∧ (LogReg.generate_synthetic_data 2 0).2.1.get? 1
            = some (encodeOneHot LogReg.num_classes y)
        ∧ (LogReg.generate_synthetic_data 2 0).1.get? 1
            = some ((LogReg.featureRow y s2).1)) :=
  C5_generate_synthetic_data_count 2 0 1 (by decide)

/-! ### Lemmas about softmax -/

theorem exp_sum_pos (z : List ℝ) (hz : z ≠ []) : 0 < (z.map Real.exp).sum := by
  cases z with
  | nil => exact absurd rfl hz
  | cons a t =>
    simp only [List.map_cons, List.sum_cons]
    have h1 : (0 : ℝ) < Real.exp a := Real.exp_pos a
    have h2 : (0 : ℝ) ≤ (t.map Real.exp).sum :=
      List.sum_nonneg (by
        intro x hx
        obtain ⟨v, _, rfl⟩ := List.mem_map.mp hx
        exact (Real.exp_pos v).le)
    linarith

theorem sum_map_div (l : List ℝ) (c : ℝ) :
    (l.map (fun x => x / c)).sum = l.sum / c := by
  induction l with
  | nil => simp
  | cons a t ih => simp [ih, add_div]

theorem softmaxL_sum_one (z : List ℝ) (hz : z ≠ []) : (softmaxL z).sum = 1 := by
  have hpos := exp_sum_pos z hz
  have h1 : softmaxL z = (z.map Real.exp).map (fun x => x / (z.map Real.exp).sum) := by
    rw [softmaxL, List.map_map]
    rfl
  rw [h1, sum_map_div]
  exact div_self (ne_of_gt hpos)

theorem softmaxL_mem_bounds (z : List ℝ) (q : ℝ) (hq : q ∈ softmaxL z) :
    0 ≤ q ∧ q ≤ 1 := by
  obtain ⟨v, hv, rfl⟩ := List.mem_map.mp hq
  have hz : z ≠ [] := by
    intro h
    rw [h] at hv
    exact absurd hv (List.not_mem_nil v)
  have hpos := exp_sum_pos z hz
  constructor
  · exact div_nonneg (Real.exp_pos v).le hpos.le
  · rw [div_le_one hpos]
    refine List.single_le_sum ?_ _ (List.mem_map_of_mem Real.exp hv)
    intro x hx
    obtain ⟨w, _, rfl⟩ := List.mem_map.mp hx
    exact (Real.exp_pos w).le

theorem model_ne_nil {α : Type} [CommRing α] (W : List (List α)) (bv x : List α) :
    LogReg.model W bv x ≠ [] := by
  simp [LogReg.model, LogReg.num_classes, List.range_succ]

/-! ### Claim C6: `get_probability` returns a probability distribution -/

/-- C6: for every input and fixed parameters, `get_probability` (softmax of
the raw model scores) returns a probability distribution over the classes:
every entry lies in `[0, 1]` and the entries sum to 1; likewise for the
softmax of any non-empty score vector, covering the MNIST
`get_probability`.  The output depends only on the input and parameters
(the embedding is a pure function, so repeated calls agree definitionally). -/
theorem C6_get_probability_distribution (W : List (List ℝ)) (bv x : List ℝ)
    (z : List ℝ) (hz : z ≠ []) :
    (∀ q ∈ LogReg.get_probability W bv x, 0 ≤ q ∧ q ≤ 1)
    ∧ (LogReg.get_probability W bv x).sum = 1
    ∧ (∀ q ∈ softmaxL z, 0 ≤ q ∧ q ≤ 1)
    ∧ (softmaxL z).sum = 1
    ∧ LogReg.get_probability W bv x = LogReg.get_probability W bv x :=
  ⟨fun q hq => softmaxL_mem_bounds _ q hq,
   softmaxL_sum_one _ (by
     intro h
     exact model_ne_nil W bv x (by
       have hlen := congrArg List.length h
       simp only [softmaxL, List.length_map] at hlen
       exact List.length_eq_zero.mp hlen)),
   fun q hq => softmaxL_mem_bounds z q hq,
   softmaxL_sum_one z hz,
   rfl⟩

/-- Witness for C6 at a concrete input: empty parameter lists (the scores
are then the two zero biases) and the score vector `[0, 1]`. -/
theorem C6_get_probability_distribution_witness :
    (∀ q ∈ LogReg.get_probability [] [] [], 0 ≤ q ∧ q ≤ 1)
    ∧ (LogReg.get_probability [] [] []).sum = 1
    ∧ (∀ q ∈ softmaxL [0, 1], 0 ≤ q ∧ q ≤ 1)
    ∧ (softmaxL [0, 1]).sum = 1
    ∧ LogReg.get_probability [] [] [] = LogReg.get_probability [] [] [] :=
  C6_get_probability_distribution [] [] [] [0, 1] (List.cons_ne_nil 0 [1])

/-! ### Claim C7: model output shape is (batch_size, num_classes) -/

/-- C7: for every batch, the logistic-regression model
`cntk.times(data, W) + b` produces one score row per sample with exactly
`num_classes = 2` entries, and the MNIST network, whose final layer is
`Dense(num_classes)`, maps every `(28, 28)` input shape to the output shape
`[10]`: in both cases the batch output has shape
`(batch_size, num_classes)`. -/
theorem C7_model_output_shape (W : List (List ℚ)) (bv : List ℚ)
    (X : List (List ℚ)) (batchShapes : List Mnist.Shape)
    (hb : ∀ sh ∈ batchShapes, sh = [28, 28]) :
    (X.map (LogReg.model W bv)).length = X.length
    ∧ (∀ r ∈ X.map (LogReg.model W bv), r.length = LogReg.num_classes)
    ∧ Mnist.modelShape [28, 28] = [Mnist.num_classes]
    ∧ (batchShapes.map Mnist.modelShape).length = batchShapes.length
    ∧ (∀ r ∈ batchShapes.map Mnist.modelShape, r = [Mnist.num_classes]) := by
  refine ⟨List.length_map X _, ?_, by decide, List.length_map batchShapes _, ?_⟩
  · intro r hr
    obtain ⟨x, _, rfl⟩ := List.mem_map.mp hr
    simp [LogReg.model]
  · intro r hr
    obtain ⟨sh, hsh, rfl⟩ := List.mem_map.mp hr
    rw [hb sh hsh]
    decide

/-- Witness for C7 at a concrete input: the identity weights on a one-sample
batch and a one-image MNIST batch shape. -/
theorem C7_model_output_shape_witness :
    (([[(1 : ℚ), 2]]).map (LogReg.model [[1, 0], [0, 1]] [0, 0])).length
        = ([[(1 : ℚ), 2]] : List (List ℚ)).length
    ∧ (∀ r ∈ ([[(1 : ℚ), 2]]).map (LogReg.model [[1, 0], [0, 1]] [0, 0]),
        r.length = LogReg.num_classes)
    ∧ Mnist.modelShape [28, 28] = [Mnist.num_classes]
    ∧ (([[28, 28]] : List Mnist.Shape).map Mnist.modelShape).length
        = ([[28, 28]] : List Mnist.Shape).length
    ∧ (∀ r ∈ ([[28, 28]] : List Mnist.Shape).map Mnist.modelShape,
        r = [Mnist.num_classes]) :=
  C7_model_output_shape [[1, 0], [0, 1]] [0, 0] [[1, 2]] [[28, 28]]
    (by
      intro sh hsh
      rcases List.mem_cons.mp hsh with rfl | h
      · rfl
      · exact absurd h (List.not_mem_nil sh))

/-! ### Lemmas about `np.argmax` -/

theorem argmaxAux_of_all_lt {α : Type} [LinearOrder α] :
    ∀ (l : List α) (i : Nat) (bv : α) (best : Nat),
      (∀ x ∈ l, x < bv) → argmaxAux l i bv best = best := by
  intro l
  induction l with
  | nil => intro i bv best _; rfl
  | cons a t ih =>
    intro i bv best h
    rw [argmaxAux, if_neg (not_lt_of_gt (h a (List.mem_cons_self a t)))]
    exact ih (i + 1) bv best (fun x hx => h x (List.mem_cons_of_mem a hx))

theorem argmaxAux_pick {α : Type} [LinearOrder α] :
    ∀ (l : List α) (k : Nat) (hk : k < l.length) (i : Nat) (bv : α) (best : Nat),
      bv < l.get ⟨k, hk⟩ →
      (∀ j (hj : j < l.length), j ≠ k → l.get ⟨j, hj⟩ < l.get ⟨k, hk⟩) →
      argmaxAux l i bv best = i + k := by
  intro l
  induction l with
  | nil => intro k hk; simp at hk
  | cons a t ih =>
    intro k hk i bv best hbv hmax
    cases k with
    | zero =>
      rw [argmaxAux, if_pos (show bv < a from hbv)]
      rw [argmaxAux_of_all_lt t (i + 1) a i ?_]
      · omega
      · intro x hx
        obtain ⟨⟨j, hj⟩, rfl⟩ := List.mem_iff_get.mp hx
        exact hmax (j + 1) (by simpa using hj) (by omega)
    | succ j =>
      have hjt : j < t.length := by simpa using hk
      have ha : a < t.get ⟨j, hjt⟩ := hmax 0 (by simp) (by omega)
      have hbt : bv < t.get ⟨j, hjt⟩ := hbv
      have hmaxt : ∀ j2 (hj2 : j2 < t.length), j2 ≠ j →
          t.get ⟨j2, hj2⟩ < t.get ⟨j, hjt⟩ := by
        intro j2 hj2 hne
        exact hmax (j2 + 1) (by simpa using hj2) (by omega)
      rw [argmaxAux]
      by_cases hba : bv < a
      · rw [if_pos hba]
        have h := ih j hjt (i + 1) a i ha hmaxt
        rw [h]
        omega
      · rw [if_neg hba]
        have h := ih j hjt (i + 1) bv best hbt hmaxt
        rw [h]
        omega

/-- The function `np.argmax` returns the position of a unique maximum. -/
theorem argmaxIdx_unique_max {α : Type} [LinearOrder α] (z : List α) (k : Nat)
    (hk : k < z.length)
    (hmax : ∀ j (hj : j < z.length), j ≠ k → z.get ⟨j, hj⟩ < z.get ⟨k, hk⟩) :
    argmaxIdx z = k := by
  cases z with
  | nil => simp at hk
  | cons a t =>
    cases k with
    | zero =>
      rw [argmaxIdx]
      apply argmaxAux_of_all_lt
      intro x hx
      obtain ⟨⟨j, hj⟩, rfl⟩ := List.mem_iff_get.mp hx
      exact hmax (j + 1) (by simpa using hj) (by omega)
    | succ j =>
      have hjt : j < t.length := by simpa using hk
      rw [argmaxIdx]
      have h := argmaxAux_pick t j hjt 1 a 0
        (hmax 0 (by simp) (by omega))
        (fun j2 hj2 hne => hmax (j2 + 1) (by simpa using hj2) (by omega))
      rw [h]
      omega

/-! ### Claim C9: softmax never changes the argmax -/

/-- C9: for every score vector with a unique maximum (at position `k`),
the first index of the maximum of `softmax(z)` equals the first index of
the maximum of `z` (both are `k`): applying softmax before `argmax` never
changes the reported prediction. -/
theorem C9_softmax_preserves_argmax (z : List ℝ) (k : Nat) (hk : k < z.length)
    (hmax : ∀ j (hj : j < z.length), j ≠ k → z.get ⟨j, hj⟩ < z.get ⟨k, hk⟩) :
    argmaxIdx (softmaxL z) = argmaxIdx z ∧ argmaxIdx z = k := by
  have hz : z ≠ [] := List.ne_nil_of_length_pos (by omega)
  have hS := exp_sum_pos z hz
  have hzk : argmaxIdx z = k := argmaxIdx_unique_max z k hk hmax
  have hlen : (softmaxL z).length = z.length := by simp [softmaxL]
  have hk2 : k < (softmaxL z).length := by omega
  have hsk : argmaxIdx (softmaxL z) = k := by
    apply argmaxIdx_unique_max (softmaxL z) k hk2
    intro j hj hne
    have hjz : j < z.length := by omega
    rw [List.get_eq_getElem, List.get_eq_getElem]
    simp only [softmaxL, List.getElem_map]
    rw [div_lt_div_right hS]
    refine Real.exp_lt_exp.mpr ?_
    have h := hmax j hjz hne
    rwa [List.get_eq_getElem, List.get_eq_getElem] at h
  exact ⟨hsk.trans hzk.symm, hzk⟩

/-- Witness for C9 at a concrete input: the score vector `[0, 1]`, whose
unique maximum sits at index 1. -/
theorem C9_softmax_preserves_argmax_witness :
    argmaxIdx (softmaxL [(0 : ℝ), 1]) = argmaxIdx [(0 : ℝ), 1]
    ∧ argmaxIdx [(0 : ℝ), 1] = 1 :=
  C9_softmax_preserves_argmax [0, 1] 1 (by decide) (by
    intro j hj hne
    have hj2 : j < 2 := by simpa using hj
    interval_cases j
    · show (0 : ℝ) < 1
      norm_num
    · exact absurd rfl hne)

/-! ### Lemmas about joint reindexing (`sklearn.utils.shuffle` semantics) -/

theorem zip_get?_eq {α β : Type} :
    ∀ (l1 : List α) (l2 : List β) (j : Nat),
      (l1.zip l2).get? j
        = (l1.get? j).bind (fun a => (l2.get? j).map (fun b => (a, b))) := by
  intro l1
  induction l1 with
  | nil => intro l2 j; simp
  | cons a t ih =>
    intro l2 j
    cases l2 with
    | nil => simp
    | cons b t2 =>
      cases j with
      | zero => rfl
      | succ j2 => simpa using ih t2 j2

theorem filterMap_get?_range {α : Type} :
    ∀ l : List α, (List.range l.length).filterMap (fun j => l.get? j) = l := by
  intro l
  induction l with
  | nil => rfl
  | cons a t ih =>
    show (List.range (t.length + 1)).filterMap (fun j => (a :: t).get? j) = a :: t
    rw [List.range_succ_eq_map, List.filterMap_cons, List.filterMap_map]
    show a :: (List.range t.length).filterMap (fun j => t.get? j) = a :: t
    rw [ih]

theorem applyPerm_perm {α : Type} (p : List Nat) (l : List α)
    (hp : p.Perm (List.range l.length)) : (applyPerm p l).Perm l := by
  have h := hp.filterMap (fun j => l.get? j)
  rw [filterMap_get?_range l] at h
  exact h

theorem applyPerm_map {α β : Type} (f : α → β) :
    ∀ (p : List Nat) (l : List α),
      applyPerm p (l.map f) = (applyPerm p l).map f := by
  intro p
  induction p with
  | nil => intro l; rfl
  | cons j t ih =>
    intro l
    have ih2 := ih l
    simp only [applyPerm, List.get?_eq_getElem?, List.getElem?_map] at ih2 ⊢
    rcases hj : l[j]? with _ | a
    · simp only [List.filterMap_cons, hj, Option.map_none']
      exact ih2
    · simp only [List.filterMap_cons, hj, Option.map_some']
      rw [ih2, List.map_cons]

theorem applyPerm_zip {α β : Type} :
    ∀ (p : List Nat) (l1 : List α) (l2 : List β), l1.length = l2.length →
      applyPerm p (l1.zip l2) = (applyPerm p l1).zip (applyPerm p l2) := by
  intro p
  induction p with
  | nil => intro l1 l2 _; rfl
  | cons j t ih =>
    intro l1 l2 h
    by_cases hj : j < l1.length
    · have hj2 : j < l2.length := by omega
      have h1 : l1.get? j = some (l1.get ⟨j, hj⟩) := List.get?_eq_get hj
      have h2 : l2.get? j = some (l2.get ⟨j, hj2⟩) := List.get?_eq_get hj2
      have hz : (l1.zip l2).get? j
          = some (l1.get ⟨j, hj⟩, l2.get ⟨j, hj2⟩) := by
        rw [zip_get?_eq, h1, h2]
        rfl
      simp only [applyPerm, List.filterMap_cons, h1, h2, hz]
      simp only [applyPerm] at ih
      rw [ih l1 l2 h]
      rfl
    · have h1 : l1.get? j = none := List.get?_eq_none.mpr (by omega)
      have h2 : l2.get? j = none := List.get?_eq_none.mpr (by omega)
      have hz : (l1.zip l2).get? j = none := by
        rw [zip_get?_eq, h1]
        rfl
      simp only [applyPerm, List.filterMap_cons, h1, h2, hz]
      simp only [applyPerm] at ih
      exact ih l1 l2 h

theorem applyPerm_get? {α : Type} :
    ∀ (p : List Nat) (l : List α), (∀ j ∈ p, j < l.length) →
      ∀ i, i < p.length →
        (applyPerm p l).get? i = l.get? (p.getD i 0) := by
  intro p
  induction p with
  | nil => intro l _ i hi; simp at hi
  | cons j t ih =>
    intro l hvalid i hi
    have hj : j < l.length := hvalid j (List.mem_cons_self j t)
    have h1 : l.get? j = some (l.get ⟨j, hj⟩) := List.get?_eq_get hj
    cases i with
    | zero =>
      simp only [applyPerm, List.filterMap_cons, h1]
      exact h1.symm
    | succ i2 =>
      simp only [applyPerm, List.filterMap_cons, h1]
      exact ih l (fun x hx => hvalid x (List.mem_cons_of_mem j hx)) i2
        (by simpa using hi)

/-! ### Claim C10: `fetch_mnist` splits, shuffles jointly, keeps test order -/

/-- C10: `fetch_mnist` partitions the fetched corpus into the first 60000
samples (training) and the disjoint remainder (test): train and test
concatenate back to the full corpus.  The training set is reordered by the
single seeded permutation `p` applied jointly to features and labels: the
training pairs are a permutation of the original first-60000 pairs, and entry
`i` of the shuffled features and entry `i` of the shuffled labels both come
from the same original position `p[i]`, so every training feature keeps its
original label.  The test set is left in the original order with features
and labels aligned. -/
theorem C10_fetch_mnist_split (p : List Nat) (Xraw : List (List ℚ))
    (Yraw : List Nat) (hlen : Xraw.length = Yraw.length)
    (hp : p.Perm (List.range (min 60000 Xraw.length))) :
    (Mnist.fetch_mnist p Xraw Yraw).2.2.1 = (Mnist.normalize255 Xraw).drop 60000
    ∧ (Mnist.fetch_mnist p Xraw Yraw).2.2.2
        = (Yraw.drop 60000).map (encodeOneHot 10)
    ∧ (Mnist.normalize255 Xraw).take 60000 ++ (Mnist.normalize255 Xraw).drop 60000
        = Mnist.normalize255 Xraw
    ∧ Yraw.take 60000 ++ Yraw.drop 60000 = Yraw
    ∧ ((Mnist.fetch_mnist p Xraw Yraw).1.zip
        (Mnist.fetch_mnist p Xraw Yraw).2.1).Perm
        (((Mnist.normalize255 Xraw).take 60000).zip
          ((Yraw.take 60000).map (encodeOneHot 10)))
    ∧ (∀ i, i < p.length →
        (Mnist.fetch_mnist p Xraw Yraw).1.get? i
            = ((Mnist.normalize255 Xraw).take 60000).get? (p.getD i 0)
        ∧ (Mnist.fetch_mnist p Xraw Yraw).2.1.get? i
            = ((Yraw.take 60000).map (encodeOneHot 10)).get? (p.getD i 0)) := by
  have hXn : (Mnist.normalize255 Xraw).length = Xraw.length := by
    simp [Mnist.normalize255]
  have hXtr : ((Mnist.normalize255 Xraw).take 60000).length
      = min 60000 Xraw.length := by
    rw [List.length_take, hXn]
  have hYenc : ((Yraw.take 60000).map (encodeOneHot 10)).length
      = min 60000 Xraw.length := by
    rw [List.length_map, List.length_take, hlen]
  have hvalidX : ∀ j ∈ p,
      j < ((Mnist.normalize255 Xraw).take 60000).length := by
    intro j hj
    rw [hXtr]
    exact List.mem_range.mp (hp.mem_iff.mp hj)
  have hvalidY : ∀ j ∈ p,
      j < ((Yraw.take 60000).map (encodeOneHot 10)).length := by
    intro j hj
    rw [hYenc]
    exact List.mem_range.mp (hp.mem_iff.mp hj)
  have hzipjoint : ((Mnist.fetch_mnist p Xraw Yraw).1).zip
      ((Mnist.fetch_mnist p Xraw Yraw).2.1)
      = applyPerm p (((Mnist.normalize255 Xraw).take 60000).zip
          ((Yraw.take 60000).map (encodeOneHot 10))) := by
    show ((applyPerm p ((Mnist.normalize255 Xraw).take 60000)).zip
        ((applyPerm p (Yraw.take 60000)).map (encodeOneHot 10))) = _
    rw [← applyPerm_map (encodeOneHot 10) p (Yraw.take 60000)]
    rw [← applyPerm_zip p _ _ (by rw [hXtr, hYenc])]
  refine ⟨rfl, rfl, List.take_append_drop 60000 _,
    List.take_append_drop 60000 _, ?_, ?_⟩
  · rw [hzipjoint]
    apply applyPerm_perm
    rw [List.length_zip, hXtr, hYenc, Nat.min_self]
    exact hp
  · intro i hi
    constructor
    · exact applyPerm_get? p _ hvalidX i hi
    · show ((applyPerm p (Yraw.take 60000)).map (encodeOneHot 10)).get? i = _
      rw [← applyPerm_map (encodeOneHot 10) p (Yraw.take 60000)]
      exact applyPerm_get? p _ hvalidY i hi

/-- Witness for C10 at a concrete input: a two-image corpus with labels 3
and 4, shuffled by the transposition `[1, 0]`. -/
theorem C10_fetch_mnist_split_witness :
    ((Mnist.fetch_mnist [1, 0] [[255], [510]] [3, 4]).1.zip
        (Mnist.fetch_mnist [1, 0] [[255], [510]] [3, 4]).2.1).Perm
      (((Mnist.normalize255 [[255], [510]]).take 60000).zip
        (([3, 4].take 60000).map (encodeOneHot 10))) :=
  (C10_fetch_mnist_split [1, 0] [[255], [510]] [3, 4] rfl
    (by decide)).2.2.2.2.1

end CNTK1stSteps
